import Mathlib

/-!
# Verification of the asynchronous parameter-server training core

Shallow embedding of `AsyncGraphGroup` from `src/training/graph_group.h`
(async, multi-device parameter-server training).  Tensors of floats are
modelled as `List ℚ`; C++ `int` counters are modelled as `ℤ` (with `%`
agreeing with C++ `%` on the nonnegative values that occur); `size_t`
counters as `ℕ`.  The external collaborators that the design treats as
abstract (the per-shard optimizer `shardOpt_[idx]->update`, the whole-graph
optimizer `opt_->update(graphs_[0], ...)` and the gradient-drop kernel
`dropper->dropGraph`) are universally quantified function parameters.
-/

namespace Marian

/-- Per-shard state of the sharded parameter store.
`version` is `globalVersionNumber[idx]`; `hist` is the history ring
`params_[h_id][idx]` for `h_id = 0, ..., history_size_ - 1`; `histVer`
is specification instrumentation recording, for each history slot, the
version whose parameter contents that slot currently holds; `grad` is
`grads_[idx]`; `avg` is `paramsAvg_[idx]`. -/
structure Shard where
  version : ℤ
  hist : List (List ℚ)
  histVer : List ℤ
  grad : List ℚ
  avg : List ℚ
deriving DecidableEq

/-- The decay factor of `updateMovingAverage` (graph_group.h line 546):
`decay = min(mvDecay_, (batches + 1) / (batches + 10))`. -/
def decayOf (mvDecay : ℚ) (batches : ℕ) : ℚ :=
  min mvDecay (((batches : ℚ) + 1) / ((batches : ℚ) + 10))

/-- `AsyncGraphGroup::updateMovingAverage` (graph_group.h lines 545-548):
`Element(_1 = decay * _1 + (1 - decay) * _2, paramsAvg, params)`, elementwise. -/
def updateMovingAverage (mvDecay : ℚ) (paramsAvg params : List ℚ) (batches : ℕ) : List ℚ :=
  List.zipWith
    (fun a p => decayOf mvDecay batches * a + (1 - decayOf mvDecay batches) * p)
    paramsAvg params

/-- The bootstrap of the moving average (graph_group.h line 647):
`paramAvg->copyFrom(params_[0][i])` — an exact copy of the live shard
parameters, with no decay blending. -/
def initMovingAverage (liveParams : List ℚ) : List ℚ := liveParams

/-- `dest->subtensor(pos, src.length)->copyFrom(src)`: overwrite the slice
`[pos, pos + src.length)` of `dest` with `src`. -/
def writeSlice (dest : List ℚ) (pos : ℕ) (src : List ℚ) : List ℚ :=
  dest.take pos ++ src ++ dest.drop (pos + src.length)

/-- Modelled from the spec: `SparseTensor::scatterAdd` (the file
`training/sparse_tensor.h` is not among the provided sources).  The spec
says a sparse delta is scatter-added into the destination: each retained
`(index, value)` pair adds its value at its index. -/
def scatterAdd (sp : List (ℕ × ℚ)) (buf : List ℚ) : List ℚ :=
  sp.foldl (fun b iv => b.set iv.1 (b.getD iv.1 0 + iv.2)) buf

/-- Modelled from the spec: `SparseTensor::toDense(dense, -pos)` (the file
`training/sparse_tensor.h` is not among the provided sources).  The sparse
delta is converted back to a dense buffer of the shard size, each
`(index, value)` pair written at the shifted position `index - pos`, zeros
elsewhere (entries dropped by the drop policy contribute zero gradient). -/
def toDense (sp : List (ℕ × ℚ)) (pos : ℕ) (len : ℕ) : List ℚ :=
  sp.foldl (fun b iv => b.set (iv.1 - pos) iv.2) (List.replicate len 0)

/-- Modelled from the spec: `SparseTensor::subtensor(pos, size, idx)` (the
file `training/sparse_tensor.h` is not among the provided sources).  The
spec assigns the sparsifier the shard-splitting job: a worker-wide sparse
vector is split into per-shard sub-deltas by index range `[pos, pos+size)`. -/
def subSparse (sp : List (ℕ × ℚ)) (pos size : ℕ) : List (ℕ × ℚ) :=
  sp.filter (fun iv => decide (pos ≤ iv.1 ∧ iv.1 < pos + size))

/-- The history slot read by `sparseFetchParams` (graph_group.h lines
450-458): `currVersion = localVersionNumbers[worker_id][idx] % history_size_`,
overridden to `(1 + globalVersionNumber[idx]) % history_size_` when the
view of the worker is at least `history_size_` versions old. -/
def chosenSlot (H ver localVer : ℤ) : ℕ :=
  if H ≤ ver - localVer then ((1 + ver) % H).toNat else (localVer % H).toNat

/-- Initial per-shard state built on first execution (graph_group.h lines
558, 576-595, 619-622, 647): version counter 0, every history slot holding a
copy of the initial parameter slice `p0`, a zero gradient buffer, and the
moving-average buffer boot-strapped as a copy of `params_[0][i]`. -/
def initShard (H : ℕ) (p0 : List ℚ) : Shard :=
  ⟨0, List.replicate H p0, List.replicate H 0, List.replicate p0.length 0, initMovingAverage p0⟩

/-- Per-shard body of `AsyncGraphGroup::pushGradients` (graph_group.h lines
402-426), executed under `shardSync_[idx]`.  `newGrad` is the per-worker
gradient slice `newGrads->subtensor(pos, grads_[idx]->size())`; `optUpd`
is the abstract `shardOpt_[idx]->update` taking an optional learning-rate
scale.  The version is incremented (and the ring slot copied) only when
`history_size_ > 1`; otherwise `latestVersion` stays 0 and the version
counter is untouched. -/
def pushShard (optUpd : Option ℚ → List ℚ → List ℚ → List ℚ) (mvDecay : ℚ) (H : ℤ)
    (scaleLR : Bool) (avgWords : ℚ) (movingAvg : Bool) (batches : ℕ)
    (newGrad : List ℚ) (batchWords : ℕ) (sh : Shard) : Shard :=
  let scale := if scaleLR then some ((batchWords : ℚ) / avgWords) else none
  if 1 < H then
    let past := (sh.version % H).toNat
    let v := sh.version + 1
    let latest := (v % H).toNat
    let hist0 := sh.hist.set latest (sh.hist.getD past [])
    let hist1 := hist0.set latest (optUpd scale (hist0.getD latest []) newGrad)
    let avg1 := if movingAvg then updateMovingAverage mvDecay sh.avg (hist1.getD latest []) batches
                else sh.avg
    ⟨v, hist1, sh.histVer.set latest v, newGrad, avg1⟩
  else
    let hist1 := sh.hist.set 0 (optUpd scale (sh.hist.getD 0 []) newGrad)
    let avg1 := if movingAvg then updateMovingAverage mvDecay sh.avg (hist1.getD 0 []) batches
                else sh.avg
    ⟨sh.version, hist1, sh.histVer, newGrad, avg1⟩

/-- Per-shard body of `AsyncGraphGroup::sparsePush` in the multi-replica
case (graph_group.h lines 505-533), executed under `shardSync_[idx]`:
split the worker-wide sparse gradient to this shard, densify it with
offset `-pos` into `grads_[idx]`, copy the ring slot, increment the
version unconditionally, and run the shard optimizer. -/
def sparsePushShard (optUpd : Option ℚ → List ℚ → List ℚ → List ℚ) (mvDecay : ℚ) (H : ℤ)
    (scaleLR : Bool) (avgWords : ℚ) (movingAvg : Bool) (batches : ℕ) (pos : ℕ)
    (subGrad : List (ℕ × ℚ)) (batchWords : ℕ) (sh : Shard) : Shard :=
  let grad1 := toDense subGrad pos sh.grad.length
  let past := (sh.version % H).toNat
  let v := sh.version + 1
  let latest := (v % H).toNat
  let hist0 := sh.hist.set latest (sh.hist.getD past [])
  let scale := if scaleLR then some ((batchWords : ℚ) / avgWords) else none
  let hist1 := hist0.set latest (optUpd scale (hist0.getD latest []) grad1)
  let avg1 := if movingAvg then updateMovingAverage mvDecay sh.avg (hist1.getD latest []) batches
              else sh.avg
  ⟨v, hist1, sh.histVer.set latest v, grad1, avg1⟩

/-- A sequence of sparse pushes to one shard; each entry carries the
sub-gradient, the batch word count, and the scheduler batch count. -/
def sparsePushN (optUpd : Option ℚ → List ℚ → List ℚ → List ℚ) (mvDecay : ℚ) (H : ℤ)
    (scaleLR : Bool) (avgWords : ℚ) (movingAvg : Bool) (pos : ℕ)
    (pushes : List (List (ℕ × ℚ) × ℕ × ℕ)) (sh : Shard) : Shard :=
  pushes.foldl
    (fun s p =>
      sparsePushShard optUpd mvDecay H scaleLR avgWords movingAvg p.2.2 pos p.1 p.2.1 s)
    sh

/-- Per-shard body of `AsyncGraphGroup::sparseFetchParams` (graph_group.h
lines 446-481), executed under `shardSync_[idx]`.  `dropG` is the abstract
`fetchDropper[worker_id][idx]->dropGraph` sparsification kernel.  Returns
the updated destination buffer and the new last-seen version of the worker for
this shard. -/
def sparseFetchShard (dropG : List ℚ → ℚ → List (ℕ × ℚ)) (H : ℤ) (dropRate : ℚ)
    (pos size : ℕ) (sh : Shard) (localVer : ℤ) (dest : List ℚ) : List ℚ × ℤ :=
  let latest := (sh.version % H).toNat
  let curr := chosenSlot H sh.version localVer
  if sh.version = localVer then (dest, localVer)
  else
    let delta := List.zipWith (fun a b => a - b) (sh.hist.getD latest []) (sh.hist.getD curr [])
    let sp := dropG delta dropRate
    (writeSlice dest pos (scatterAdd sp ((dest.drop pos).take size)), sh.version)

/-- `AsyncGraphGroup::sparseFetchParams` (graph_group.h lines 436-490):
returns immediately when fewer than two graph replicas exist; otherwise
runs the per-shard body for every shard at offsets `pos = idx * shardSize_`,
threading the destination buffer and the per-worker version table. -/
def sparseFetchParamsFull (dropG : List ℚ → ℚ → List (ℕ × ℚ)) (numGraphs : ℕ) (H : ℤ)
    (dropRate : ℚ) (shardSize : ℕ) (shards : List Shard) (localVers : List ℤ)
    (dest : List ℚ) : List ℚ × List ℤ :=
  if numGraphs < 2 then (dest, localVers)
  else
    (List.range shards.length).foldl
      (fun acc i =>
        let sh := shards.getD i ⟨0, [], [], [], []⟩
        let r := sparseFetchShard dropG H dropRate (i * shardSize) sh.grad.length sh
          (acc.2.getD i 0) acc.1
        (r.1, acc.2.set i r.2))
      (dest, localVers)

/-- `AsyncGraphGroup::sparsePush` (graph_group.h lines 492-543).  With
fewer than two graph replicas the sparse gradient is ignored and the
whole-graph optimizer `opt_` (modelled by the abstract `optG`, acting on the
parameter and gradient buffer pair of graph 0) is applied directly,
with learning-rate scale `batch_words / average_batch_words` when
`scale_lr` is set.  Otherwise every shard runs the sparse per-shard push. -/
def sparsePushFull (optUpd : Option ℚ → List ℚ → List ℚ → List ℚ)
    (optG : Option ℚ → List ℚ × List ℚ → List ℚ × List ℚ) (mvDecay : ℚ)
    (numGraphs : ℕ) (H : ℤ) (scaleLR : Bool) (avgWords : ℚ) (movingAvg : Bool)
    (batches : ℕ) (shardSize : ℕ) (newGrads : List (ℕ × ℚ)) (batchWords : ℕ)
    (graph0 : List ℚ × List ℚ) (shards : List Shard) : (List ℚ × List ℚ) × List Shard :=
  if numGraphs < 2 then
    (optG (if scaleLR then some ((batchWords : ℚ) / avgWords) else none) graph0, shards)
  else
    (graph0,
      (List.range shards.length).foldl
        (fun acc i =>
          let sh := acc.getD i ⟨0, [], [], [], []⟩
          acc.set i
            (sparsePushShard optUpd mvDecay H scaleLR avgWords movingAvg batches
              (i * shardSize) (subSparse newGrads (i * shardSize) sh.grad.length)
              batchWords sh))
        shards)

/-- `shardSize_ = ceil(totalSize / devices_.size())` (graph_group.h line
568).  `totalSize / devices_.size()` is C++ integer division (`int`
divided by `size_t`), so the division truncates before `ceil` is applied
and `ceil` is a no-op. -/
def shardSizeOf (totalSize numDevices : ℕ) : ℕ := totalSize / numDevices

/-- The shard-size loop of the first execution (graph_group.h lines
570-600): for each device, `size = min(shardSize_, totalSize);
totalSize -= size`. -/
def shardSizesGo (s : ℕ) : ℕ → ℕ → List ℕ
  | 0, _ => []
  | n + 1, rem => min s rem :: shardSizesGo s n (rem - min s rem)

/-- The sizes of the shards created at first execution for a given total
parameter count and device count. -/
def shardSizes (totalSize numDevices : ℕ) : List ℕ :=
  shardSizesGo (shardSizeOf totalSize numDevices) numDevices totalSize

/-- `history_size_` (graph_group.h lines 348, 853-855): 1 by default, and
`devices_.size() * 1.5` truncated to `int` when the drop rate is
positive. -/
def historySize (numDevices : ℕ) (dropRate : ℚ) : ℕ :=
  if 0 < dropRate then ((numDevices : ℚ) * (3 / 2) : ℚ).floor.toNat else 1

/-- `int sparseCap = totalSize * 1.2 * (1.0 - drop_rate_)` (graph_group.h
line 657), the double product truncated to `int`. -/
def sparseCapacity (totalSize : ℕ) (dropRate : ℚ) : ℤ :=
  ((totalSize : ℚ) * (12 / 10) * (1 - dropRate)).floor

/-- The capacities of the sparse buffers allocated at first execution when
the drop rate is nonzero (graph_group.h lines 655-690): per device, the
whole-worker buffers `sparseGrads_` and `localSparseGrads_` get capacity
`sparseCap`, and the per-shard buffers `tmpSparseDelta` and
`localSparseDelta[worker][shard]` get `sparseCap / devices_.size()`. -/
structure SparseAlloc where
  sparseGradsCaps : List ℤ
  localSparseGradsCaps : List ℤ
  tmpSparseDeltaCaps : List ℤ
  localSparseDeltaCaps : List (List ℤ)
deriving DecidableEq

/-- The sparse-buffer allocation of the first execution (graph_group.h
lines 655-690). -/
def allocSparse (totalSize numDevices : ℕ) (dropRate : ℚ) : SparseAlloc :=
  let cap := sparseCapacity totalSize dropRate
  ⟨List.replicate numDevices cap,
   List.replicate numDevices cap,
   List.replicate numDevices (cap / (numDevices : ℤ)),
   List.replicate numDevices (List.replicate numDevices (cap / (numDevices : ℤ)))⟩

/-- Which kind of parameter fetch a micro-step performs. -/
inductive FetchKind where
  | dense : FetchKind
  | sparse : FetchKind
deriving DecidableEq

/-- The fetch cadence of the worker task (graph_group.h lines 739-747):
a fetch happens only when `t % tau_ == 0`; it is sparse when
`drop_rate_ && t > 0` (the C++ truthiness of the double `drop_rate_` is
`drop_rate_ != 0`), dense otherwise. -/
def fetchDecision (dropRate : ℚ) (tau t : ℕ) : Option FetchKind :=
  if t % tau = 0 then
    if dropRate ≠ 0 ∧ 0 < t then some FetchKind.sparse else some FetchKind.dense
  else none

/-- Worker-thread-local accumulation state (graph_group.h lines 699-706):
`accGradients`, `num_seen_words` and the local step counter `t`. -/
structure WState where
  acc : List ℚ
  numSeen : ℕ
  t : ℕ
deriving DecidableEq

/-- One micro-step of the worker task body (graph_group.h lines 756-798).
With `tau_ > 1` the gradient is accumulated (`accGradients` is freshly
zero-allocated at `t == 0`) and the word count summed; otherwise the raw
gradient and word count are used.  After `t++`, when `t % tau_ == 0` the
pair `(gradients, num_seen_words)` is handed to the push (dense
`pushGradients`, or `dropGraph` + `sparsePush` when the drop rate is
nonzero), the word count is reset, and with `tau_ > 1` the accumulator is
zeroed.  Returns the new state and the pushed pair, if any. -/
def microStep (tau : ℕ) (g : List ℚ) (batchWords : ℕ) (st : WState) :
    WState × Option (List ℚ × ℕ) :=
  let acc1 := if 1 < tau then
      List.zipWith (fun x y => x + y)
        (if st.t = 0 then List.replicate g.length 0 else st.acc) g
    else st.acc
  let gradients := if 1 < tau then acc1 else g
  let num1 := if 1 < tau then st.numSeen + batchWords else batchWords
  if (st.t + 1) % tau = 0 then
    (⟨if 1 < tau then List.replicate gradients.length 0 else acc1, 0, st.t + 1⟩,
      some (gradients, num1))
  else
    (⟨acc1, num1, st.t + 1⟩, none)

/-- Run a sequence of micro-steps, collecting the pushed
`(gradient, word count)` pairs in order. -/
def runSteps (tau : ℕ) : WState → List (List ℚ × ℕ) → WState × List (List ℚ × ℕ)
  | st, [] => (st, [])
  | st, b :: rest =>
    let r := microStep tau b.1 b.2 st
    let rest1 := runSteps tau r.1 rest
    (rest1.1, r.2.toList ++ rest1.2)

/-- The version that the history ring of one shard holds in slot `s` after
`n` sparse pushes from the initial state: the largest version `v ≤ n`
congruent to `s` modulo `H`, or the initial version 0 if no push has
written the slot yet. -/
def ringSpec (H n : ℤ) (s : ℕ) : ℤ :=
  if (s : ℤ) ≤ n then n - ((n - (s : ℤ)) % H) else 0

/-! ## Helper lemmas -/

lemma getD_append_left {α : Type} (l1 l2 : List α) (j : ℕ) (d : α) (h : j < l1.length) :
    (l1 ++ l2).getD j d = l1.getD j d := by
  simp [List.getD_eq_getElem?_getD, List.getElem?_append, h]

lemma getD_append_right {α : Type} (l1 l2 : List α) (j : ℕ) (d : α) (h : l1.length ≤ j) :
    (l1 ++ l2).getD j d = l2.getD (j - l1.length) d := by
  simp [List.getD_eq_getElem?_getD, List.getElem?_append_right h]

lemma getD_take {α : Type} (l : List α) (n j : ℕ) (d : α) (h : j < n) :
    (l.take n).getD j d = l.getD j d := by
  simp [List.getD_eq_getElem?_getD, List.getElem?_take, h]

lemma getD_drop {α : Type} (l : List α) (n j : ℕ) (d : α) :
    (l.drop n).getD j d = l.getD (n + j) d := by
  simp [List.getD_eq_getElem?_getD, List.getElem?_drop]

lemma getD_set_self {α : Type} (l : List α) (i : ℕ) (a d : α) (h : i < l.length) :
    (l.set i a).getD i d = a := by
  simp [List.getD_eq_getElem?_getD, List.getElem?_set, h]

lemma getD_set_ne {α : Type} (l : List α) (i j : ℕ) (a d : α) (h : i ≠ j) :
    (l.set i a).getD j d = l.getD j d := by
  simp [List.getD_eq_getElem?_getD, List.getElem?_set, h]

lemma getD_replicate {α : Type} (n i : ℕ) (a d : α) (h : i < n) :
    (List.replicate n a).getD i d = a := by
  simp [List.getD_eq_getElem?_getD, List.getElem?_replicate, h]

lemma ratFloor_eq_intFloor (q : ℚ) : q.floor = ⌊q⌋ :=
  (Rat.floor_def' q).trans Rat.floor_def.symm

lemma historySize_eq_of_pos (d : ℕ) (r : ℚ) (hr : 0 < r) : historySize d r = 3 * d / 2 := by
  unfold historySize
  rw [if_pos hr, ratFloor_eq_intFloor]
  have h1 : ((d : ℚ) * (3 / 2) : ℚ) = ((3 * d : ℕ) : ℚ) / ((2 : ℕ) : ℚ) := by
    push_cast; ring
  rw [h1, Rat.floor_natCast_div_natCast]
  omega

lemma sparsePushShard_version (optUpd : Option ℚ → List ℚ → List ℚ → List ℚ) (mvDecay : ℚ)
    (H : ℤ) (scaleLR : Bool) (avgWords : ℚ) (movingAvg : Bool) (batches pos : ℕ)
    (subGrad : List (ℕ × ℚ)) (batchWords : ℕ) (sh : Shard) :
    (sparsePushShard optUpd mvDecay H scaleLR avgWords movingAvg batches pos subGrad
      batchWords sh).version = sh.version + 1 := rfl

lemma sparsePushShard_histVer (optUpd : Option ℚ → List ℚ → List ℚ → List ℚ) (mvDecay : ℚ)
    (H : ℤ) (scaleLR : Bool) (avgWords : ℚ) (movingAvg : Bool) (batches pos : ℕ)
    (subGrad : List (ℕ × ℚ)) (batchWords : ℕ) (sh : Shard) :
    (sparsePushShard optUpd mvDecay H scaleLR avgWords movingAvg batches pos subGrad
      batchWords sh).histVer
      = sh.histVer.set ((sh.version + 1) % H).toNat (sh.version + 1) := rfl

lemma sparsePushN_version (optUpd : Option ℚ → List ℚ → List ℚ → List ℚ) (mvDecay : ℚ)
    (H : ℤ) (scaleLR : Bool) (avgWords : ℚ) (movingAvg : Bool) (pos : ℕ) :
    ∀ (pushes : List (List (ℕ × ℚ) × ℕ × ℕ)) (sh : Shard),
      (sparsePushN optUpd mvDecay H scaleLR avgWords movingAvg pos pushes sh).version
        = sh.version + pushes.length := by
  intro pushes
  induction pushes with
  | nil => intro sh; simp [sparsePushN]
  | cons p l ih =>
    intro sh
    show (sparsePushN optUpd mvDecay H scaleLR avgWords movingAvg pos l
        (sparsePushShard optUpd mvDecay H scaleLR avgWords movingAvg p.2.2 pos p.1 p.2.1
          sh)).version = sh.version + (p :: l).length
    rw [ih, sparsePushShard_version]
    simp
    omega

lemma scatterAdd_length (sp : List (ℕ × ℚ)) (buf : List ℚ) :
    (scatterAdd sp buf).length = buf.length := by
  induction sp generalizing buf with
  | nil => rfl
  | cons iv t ih =>
    show (scatterAdd t (buf.set iv.1 (buf.getD iv.1 0 + iv.2))).length = buf.length
    rw [ih, List.length_set]

lemma writeSlice_getD_before (dest src : List ℚ) (pos j : ℕ) (hp : pos ≤ dest.length)
    (hj : j < pos) : (writeSlice dest pos src).getD j 0 = dest.getD j 0 := by
  unfold writeSlice
  have h1 : j < (dest.take pos ++ src).length := by
    rw [List.length_append, List.length_take]; omega
  rw [getD_append_left _ _ _ _ h1]
  have h2 : j < (dest.take pos).length := by rw [List.length_take]; omega
  rw [getD_append_left _ _ _ _ h2]
  exact getD_take _ _ _ _ hj

lemma writeSlice_getD_after (dest src : List ℚ) (pos j : ℕ) (hp : pos ≤ dest.length)
    (hj : pos + src.length ≤ j) : (writeSlice dest pos src).getD j 0 = dest.getD j 0 := by
  unfold writeSlice
  have h1 : (dest.take pos ++ src).length ≤ j := by
    rw [List.length_append, List.length_take]; omega
  rw [getD_append_right _ _ _ _ h1, getD_drop]
  have h2 : (dest.take pos ++ src).length = pos + src.length := by
    rw [List.length_append, List.length_take]; omega
  rw [h2]
  have h3 : pos + src.length + (j - (pos + src.length)) = j := by omega
  rw [h3]

lemma emod_le_self_of_nonneg (a H : ℤ) (ha : 0 ≤ a) (hH : 1 ≤ H) : a % H ≤ a := by
  rcases lt_or_le a H with h | h
  · rw [Int.emod_eq_of_lt ha h]
  · exact le_trans (le_of_lt (Int.emod_lt_of_pos a (by omega))) h

lemma neg_one_emod_eq (H : ℤ) (hH : 1 ≤ H) : (-1) % H = H - 1 := by
  have h1 : (-1 : ℤ) = (H - 1) + H * (-1) := by ring
  rw [h1, Int.add_mul_emod_self_left, Int.emod_eq_of_lt (by omega) (by omega)]

lemma emod_eq_of_dvd_sub (a b H : ℤ) (h : H ∣ b - a) : a % H = b % H :=
  Int.modEq_iff_dvd.mpr h

lemma ringSpec_succ (H n : ℤ) (hH : 1 ≤ H) (hn : 0 ≤ n) (s : ℕ)
    (hs : (s : ℤ) < H) (hne : (s : ℤ) ≠ (n + 1) % H) :
    ringSpec H (n + 1) s = ringSpec H n s := by
  unfold ringSpec
  rcases lt_trichotomy ((s : ℤ)) (n + 1) with hlt | heq | hgt
  · have hsn : (s : ℤ) ≤ n := by omega
    rw [if_pos (by omega), if_pos hsn]
    have hHgt : 1 < H := by
      rcases lt_or_eq_of_le hH with h | h
      · exact h
      · exfalso
        have hs0 : (s : ℤ) = 0 := by omega
        have : (n + 1) % H = 0 := by rw [← h]; exact Int.emod_one _
        omega
    have hr0 : 0 ≤ (n - (s : ℤ)) % H := Int.emod_nonneg _ (by omega)
    have hrH : (n - (s : ℤ)) % H < H := Int.emod_lt_of_pos _ (by omega)
    have h1H : (1 : ℤ) % H = 1 := Int.emod_eq_of_lt (by omega) hHgt
    have hadd : (n + 1 - (s : ℤ)) % H = ((n - (s : ℤ)) % H + 1) % H := by
      have hstep : n + 1 - (s : ℤ) = (n - (s : ℤ)) + 1 := by ring
      rw [hstep, Int.add_emod, h1H]
    rcases lt_or_eq_of_le (show (n - (s : ℤ)) % H + 1 ≤ H by omega) with hcase | hcase
    · rw [hadd, Int.emod_eq_of_lt (by omega) hcase]
      omega
    · exfalso
      apply hne
      have hz : (n + 1 - (s : ℤ)) % H = 0 := by
        rw [hadd, hcase, Int.emod_self]
      have hdvd : H ∣ (n + 1) - (s : ℤ) := Int.dvd_of_emod_eq_zero hz
      have := emod_eq_of_dvd_sub (s : ℤ) (n + 1) H hdvd
      rw [Int.emod_eq_of_lt (by omega) hs] at this
      exact this
  · exfalso
    apply hne
    rw [← heq]
    exact (Int.emod_eq_of_lt (by omega) hs).symm
  · rw [if_neg (by omega), if_neg (by omega)]

lemma sparsePushN_ring (optUpd : Option ℚ → List ℚ → List ℚ → List ℚ) (mvDecay : ℚ)
    (H : ℤ) (scaleLR : Bool) (avgWords : ℚ) (movingAvg : Bool) (pos : ℕ)
    (p0 : List ℚ) (hH : 1 ≤ H) (pushes : List (List (ℕ × ℚ) × ℕ × ℕ)) :
    (sparsePushN optUpd mvDecay H scaleLR avgWords movingAvg pos pushes
        (initShard H.toNat p0)).histVer.length = H.toNat ∧
    ∀ s : ℕ, s < H.toNat →
      (sparsePushN optUpd mvDecay H scaleLR avgWords movingAvg pos pushes
          (initShard H.toNat p0)).histVer.getD s 0 = ringSpec H (pushes.length : ℤ) s := by
  induction pushes using List.reverseRecOn with
  | nil =>
    constructor
    · simp [sparsePushN, initShard]
    · intro s hs
      show (List.replicate H.toNat (0 : ℤ)).getD s 0 = ringSpec H ((0 : ℕ) : ℤ) s
      rw [getD_replicate _ _ _ _ hs]
      unfold ringSpec
      by_cases h0 : (s : ℤ) ≤ ((0 : ℕ) : ℤ)
      · have hs0 : s = 0 := by omega
        subst hs0
        simp
      · rw [if_neg h0]
  | append_singleton l p ih =>
    obtain ⟨ihlen, ihspec⟩ := ih
    have happ : sparsePushN optUpd mvDecay H scaleLR avgWords movingAvg pos (l ++ [p])
        (initShard H.toNat p0) =
        sparsePushShard optUpd mvDecay H scaleLR avgWords movingAvg p.2.2 pos p.1 p.2.1
          (sparsePushN optUpd mvDecay H scaleLR avgWords movingAvg pos l
            (initShard H.toNat p0)) := by
      unfold sparsePushN
      rw [List.foldl_append]
      rfl
    have hver : (sparsePushN optUpd mvDecay H scaleLR avgWords movingAvg pos l
        (initShard H.toNat p0)).version = (l.length : ℤ) := by
      rw [sparsePushN_version]
      simp [initShard]
    rw [happ]
    constructor
    · rw [sparsePushShard_histVer, List.length_set]
      exact ihlen
    · intro s hs
      rw [sparsePushShard_histVer, hver]
      have hlapp : (((l ++ [p]).length : ℕ) : ℤ) = (l.length : ℤ) + 1 := by
        simp
      rw [hlapp]
      have hlat0 : (0 : ℤ) ≤ ((l.length : ℤ) + 1) % H := Int.emod_nonneg _ (by omega)
      have hlatH : ((l.length : ℤ) + 1) % H < H := Int.emod_lt_of_pos _ (by omega)
      by_cases heq : s = (((l.length : ℤ) + 1) % H).toNat
      · subst heq
        rw [getD_set_self _ _ _ _ (by rw [ihlen]; omega)]
        unfold ringSpec
        have hcast : (((((l.length : ℤ) + 1) % H).toNat : ℕ) : ℤ)
            = ((l.length : ℤ) + 1) % H := Int.toNat_of_nonneg hlat0
        rw [hcast, if_pos (emod_le_self_of_nonneg _ _ (by omega) hH)]
        have hq : (l.length : ℤ) + 1 - ((l.length : ℤ) + 1) % H
            = H * (((l.length : ℤ) + 1) / H) := by
          have hdef := Int.emod_def ((l.length : ℤ) + 1) H
          omega
        rw [hq, Int.mul_emod_right]
        omega
      · rw [getD_set_ne _ _ _ _ _ (fun hcontra => heq hcontra.symm)]
        rw [ihspec s hs]
        exact (ringSpec_succ H (l.length : ℤ) hH (by omega) s (by omega)
          (by
            intro hcontra
            apply heq
            omega)).symm

lemma zipWith_add_zeros (g : List ℚ) :
    List.zipWith (fun x y => x + y) (List.replicate g.length 0) g = g := by
  induction g with
  | nil => rfl
  | cons a t ih => simp [List.replicate_succ, ih]

lemma runSteps_window (tau L : ℕ) (htau : 1 < tau) :
    ∀ (batches : List (List ℚ × ℕ)) (st : WState),
      batches ≠ [] → batches.length ≤ tau →
      (st.t + batches.length) % tau = 0 →
      st.acc.length = L → (st.t = 0 → st.acc = List.replicate L 0) →
      (∀ p ∈ batches, (Prod.fst p).length = L) →
      runSteps tau st batches =
        (⟨List.replicate L 0, 0, st.t + batches.length⟩,
          [(batches.foldl (fun a p => List.zipWith (fun x y => x + y) a p.1) st.acc,
            st.numSeen + (batches.map Prod.snd).sum)]) := by
  intro batches
  induction batches with
  | nil => intro st h; exact absurd rfl h
  | cons b rest ih =>
    intro st _ hlen hmod hacc hzero hL
    have hgL : b.1.length = L := hL b (List.mem_cons_self b rest)
    have hacc0 : (if st.t = 0 then List.replicate b.1.length 0 else st.acc) = st.acc := by
      by_cases h0 : st.t = 0
      · rw [if_pos h0, hzero h0, hgL]
      · rw [if_neg h0]
    have hacc1len : (List.zipWith (fun x y => x + y) st.acc b.1).length = L := by
      rw [List.length_zipWith, hacc, hgL]
      exact Nat.min_self L
    cases rest with
    | nil =>
      have hm : (st.t + 1) % tau = 0 := by
        have hl1 : (b :: ([] : List (List ℚ × ℕ))).length = 1 := rfl
        rw [hl1] at hmod
        exact hmod
      simp only [runSteps, microStep, if_pos htau, if_pos hm, hacc0, hacc1len,
        Option.toList, List.foldl_cons, List.foldl_nil, List.map_cons, List.map_nil,
        List.sum_cons, List.sum_nil, List.length_cons, List.length_nil, List.append_nil]
      simp
    | cons r0 rs =>
      have hne : (st.t + 1) % tau ≠ 0 := by
        intro h0
        have d1 : tau ∣ st.t + 1 := Nat.dvd_of_mod_eq_zero h0
        have d2 : tau ∣ st.t + (b :: r0 :: rs).length := Nat.dvd_of_mod_eq_zero hmod
        have hlc : (b :: r0 :: rs).length = rs.length + 2 := by simp
        rw [hlc] at d2 hlen
        have d3 : tau ∣ rs.length + 1 := by
          have hsub := Nat.dvd_sub' d2 d1
          have heq : st.t + (rs.length + 2) - (st.t + 1) = rs.length + 1 := by omega
          rw [heq] at hsub
          exact hsub
        have := Nat.le_of_dvd (by omega) d3
        omega
      have hstep : microStep tau b.1 b.2 st =
          (⟨List.zipWith (fun x y => x + y) st.acc b.1, st.numSeen + b.2, st.t + 1⟩,
            none) := by
        simp only [microStep, if_pos htau, if_neg hne, hacc0]
      have hone : runSteps tau st (b :: r0 :: rs) =
          ((runSteps tau (microStep tau b.1 b.2 st).1 (r0 :: rs)).1,
            (microStep tau b.1 b.2 st).2.toList
              ++ (runSteps tau (microStep tau b.1 b.2 st).1 (r0 :: rs)).2) := rfl
      rw [hone, hstep]
      have hmod2 : ((⟨List.zipWith (fun x y => x + y) st.acc b.1,
          st.numSeen + b.2, st.t + 1⟩ : WState).t + (r0 :: rs).length) % tau = 0 := by
        show (st.t + 1 + (r0 :: rs).length) % tau = 0
        have heq : st.t + 1 + (r0 :: rs).length = st.t + (b :: r0 :: rs).length := by
          simp
          omega
        rw [heq]
        exact hmod
      have hrec := ih ⟨List.zipWith (fun x y => x + y) st.acc b.1,
          st.numSeen + b.2, st.t + 1⟩ (by simp)
          (by simp only [List.length_cons] at hlen ⊢; omega) hmod2 hacc1len
          (by intro h0; simp at h0)
          (fun p hp => hL p (List.mem_cons_of_mem b hp))
      rw [hrec]
      simp only [Option.toList, List.nil_append, List.foldl_cons, List.map_cons,
        List.sum_cons, Prod.mk.injEq, WState.mk.injEq, List.length_cons]
      refine ⟨⟨trivial, trivial, by omega⟩, ?_⟩
      rw [Nat.add_assoc]

/-! ## Claim theorems -/

/-- Claim C1 (amended): a sparse push (multi-replica `sparsePush`) always
increments the shard version by exactly 1, so after N sparse pushes from
the initial state the version equals N; a dense push (`pushGradients`)
increments the version by exactly 1 when `history_size_ > 1` but leaves it
unchanged when `history_size_ == 1` — and `history_size_ == 1` is the
configuration in effect whenever the drop rate is zero, which is the only
configuration that performs dense pushes. -/
theorem claim1_version_increment (optUpd : Option ℚ → List ℚ → List ℚ → List ℚ)
    (mvDecay : ℚ) (H : ℤ) (scaleLR : Bool) (avgWords : ℚ) (movingAvg : Bool)
    (batches pos : ℕ) (newGrad : List ℚ) (subGrad : List (ℕ × ℚ)) (batchWords : ℕ)
    (sh : Shard) (p0 : List ℚ) (pushes : List (List (ℕ × ℚ) × ℕ × ℕ)) :
    ((pushShard optUpd mvDecay H scaleLR avgWords movingAvg batches newGrad batchWords
        sh).version = if 1 < H then sh.version + 1 else sh.version) ∧
    ((sparsePushShard optUpd mvDecay H scaleLR avgWords movingAvg batches pos subGrad
        batchWords sh).version = sh.version + 1) ∧
    ((sparsePushN optUpd mvDecay H scaleLR avgWords movingAvg pos pushes
        (initShard H.toNat p0)).version = pushes.length) := by
  refine ⟨?_, rfl, ?_⟩
  · by_cases h : 1 < H
    · simp only [pushShard, if_pos h]
    · simp only [pushShard, if_neg h]
  · rw [sparsePushN_version]
    simp [initShard]

/-- Claim C1 counterexample: with history size 1 (the value of
`history_size_` whenever the drop rate is zero, hence in every
configuration that performs dense pushes) a successful dense push leaves
the shard version unchanged at 0 instead of raising it to 1, so the
version does not strictly increase on every successful push and does not
equal N after N pushes. -/
theorem claim1_counterexample :
    (pushShard (fun _ p _ => p) (9999 / 10000) 1 false 1 false 0 [1] 1
        (initShard 1 [0])).version = (initShard 1 [0]).version ∧
    (initShard 1 [0]).version = 0 ∧
    (pushShard (fun _ p _ => p) (9999 / 10000) 1 false 1 false 0 [1] 1
        (initShard 1 [0])).version ≠ (initShard 1 [0]).version + 1 := by
  refine ⟨rfl, rfl, ?_⟩
  decide

/-- Claim C3: per shard, a sparse fetch for a worker whose last-seen
version equals the current version of the shard is a no-op (destination buffer
and version table unchanged); otherwise it computes the delta between the
current buffer and the chosen historical buffer, sparsifies it with the
drop kernel, scatter-adds the sparse delta into exactly the shard slice
`[pos, pos + size)` of the destination (everything outside the slice is
untouched), and records the current shard version as the new per-worker
last-seen version. -/
theorem claim3_sparse_fetch (dropG : List ℚ → ℚ → List (ℕ × ℚ)) (H : ℤ) (dropRate : ℚ)
    (pos size : ℕ) (sh : Shard) (localVer : ℤ) (dest : List ℚ)
    (hlen : pos + size ≤ dest.length) :
    (sh.version = localVer →
      sparseFetchShard dropG H dropRate pos size sh localVer dest = (dest, localVer)) ∧
    (sh.version ≠ localVer →
      (sparseFetchShard dropG H dropRate pos size sh localVer dest).2 = sh.version ∧
      (sparseFetchShard dropG H dropRate pos size sh localVer dest).1 =
        writeSlice dest pos
          (scatterAdd
            (dropG
              (List.zipWith (fun a b => a - b)
                (sh.hist.getD ((sh.version % H).toNat) [])
                (sh.hist.getD (chosenSlot H sh.version localVer) []))
              dropRate)
            ((dest.drop pos).take size)) ∧
      (∀ j, j < pos →
        (sparseFetchShard dropG H dropRate pos size sh localVer dest).1.getD j 0
          = dest.getD j 0) ∧
      (∀ j, pos + size ≤ j →
        (sparseFetchShard dropG H dropRate pos size sh localVer dest).1.getD j 0
          = dest.getD j 0)) := by
  constructor
  · intro h
    simp only [sparseFetchShard, if_pos h]
  · intro h
    have hred : sparseFetchShard dropG H dropRate pos size sh localVer dest =
        (writeSlice dest pos
          (scatterAdd
            (dropG
              (List.zipWith (fun a b => a - b)
                (sh.hist.getD ((sh.version % H).toNat) [])
                (sh.hist.getD (chosenSlot H sh.version localVer) []))
              dropRate)
            ((dest.drop pos).take size)), sh.version) := by
      simp only [sparseFetchShard, if_neg h]
    have hsrc : (scatterAdd
        (dropG
          (List.zipWith (fun a b => a - b)
            (sh.hist.getD ((sh.version % H).toNat) [])
            (sh.hist.getD (chosenSlot H sh.version localVer) []))
          dropRate)
        ((dest.drop pos).take size)).length = size := by
      rw [scatterAdd_length, List.length_take, List.length_drop]
      omega
    refine ⟨by rw [hred], by rw [hred], ?_, ?_⟩
    · intro j hj
      rw [hred]
      exact writeSlice_getD_before _ _ _ _ (by omega) hj
    · intro j hj
      rw [hred]
      refine writeSlice_getD_after _ _ _ _ (by omega) ?_
      rw [hsrc]
      exact hj

/-- Claim C3 witness: a concrete non-current worker view — the per-shard
fetch records the shard version and leaves the buffer before the slice
unchanged. -/
theorem claim3_sparse_fetch_witness :
    (sparseFetchShard (fun delta _ => [(0, delta.getD 0 0)]) 2 (1 / 2) 1 1
      (⟨1, [[5], [3]], [1, 0], [0], [0]⟩ : Shard) 0 [10, 20, 30]).2 = 1 ∧
    (sparseFetchShard (fun delta _ => [(0, delta.getD 0 0)]) 2 (1 / 2) 1 1
      (⟨1, [[5], [3]], [1, 0], [0], [0]⟩ : Shard) 0 [10, 20, 30]).1.getD 0 0
      = ([10, 20, 30] : List ℚ).getD 0 0 := by
  have h := claim3_sparse_fetch (fun delta _ => [(0, delta.getD 0 0)]) 2 (1 / 2) 1 1
    (⟨1, [[5], [3]], [1, 0], [0], [0]⟩ : Shard) 0 [10, 20, 30] (by decide)
  exact ⟨(h.2 (by decide)).1, (h.2 (by decide)).2.2.1 0 (by decide)⟩

/-- Claim C4: whenever the last-seen version of a worker lags the
current version by at least `history_size_` versions, the sparse fetch
silently picks the slot `(1 + current) % history_size_` — the oldest
still-valid historical buffer — and the buffer it reads holds exactly
version `current - history_size_ + 1`, so the delta never references a
buffer older than `current - history + 1`. -/
theorem claim4_staleness (optUpd : Option ℚ → List ℚ → List ℚ → List ℚ) (mvDecay : ℚ)
    (scaleLR : Bool) (avgWords : ℚ) (movingAvg : Bool) (pos : ℕ) (p0 : List ℚ)
    (pushes : List (List (ℕ × ℚ) × ℕ × ℕ)) (localVer : ℤ) (H : ℤ)
    (hH : 1 ≤ H) (hlv : 0 ≤ localVer)
    (hgap : H ≤ (pushes.length : ℤ) - localVer) :
    chosenSlot H (sparsePushN optUpd mvDecay H scaleLR avgWords movingAvg pos pushes
        (initShard H.toNat p0)).version localVer
      = ((1 + (sparsePushN optUpd mvDecay H scaleLR avgWords movingAvg pos pushes
          (initShard H.toNat p0)).version) % H).toNat ∧
    (sparsePushN optUpd mvDecay H scaleLR avgWords movingAvg pos pushes
        (initShard H.toNat p0)).histVer.getD
      (chosenSlot H (sparsePushN optUpd mvDecay H scaleLR avgWords movingAvg pos pushes
          (initShard H.toNat p0)).version localVer) 0
      = (sparsePushN optUpd mvDecay H scaleLR avgWords movingAvg pos pushes
          (initShard H.toNat p0)).version - H + 1 := by
  have hver : (sparsePushN optUpd mvDecay H scaleLR avgWords movingAvg pos pushes
      (initShard H.toNat p0)).version = (pushes.length : ℤ) := by
    rw [sparsePushN_version]
    simp [initShard]
  obtain ⟨hlen, hspec⟩ := sparsePushN_ring optUpd mvDecay H scaleLR avgWords movingAvg
    pos p0 hH pushes
  have hslot : chosenSlot H ((pushes.length : ℕ) : ℤ) localVer
      = ((1 + ((pushes.length : ℕ) : ℤ)) % H).toNat := by
    unfold chosenSlot
    rw [if_pos hgap]
  have hs0 : (0 : ℤ) ≤ (1 + ((pushes.length : ℕ) : ℤ)) % H :=
    Int.emod_nonneg _ (by omega)
  have hsH : (1 + ((pushes.length : ℕ) : ℤ)) % H < H :=
    Int.emod_lt_of_pos _ (by omega)
  refine ⟨by rw [hver, hslot], ?_⟩
  rw [hver, hslot]
  have hsnat : ((1 + ((pushes.length : ℕ) : ℤ)) % H).toNat < H.toNat := by omega
  rw [hspec _ hsnat]
  unfold ringSpec
  have hcast : ((((1 + ((pushes.length : ℕ) : ℤ)) % H).toNat : ℕ) : ℤ)
      = (1 + ((pushes.length : ℕ) : ℤ)) % H := Int.toNat_of_nonneg hs0
  rw [hcast, if_pos (by omega)]
  have hq : (1 + ((pushes.length : ℕ) : ℤ)) - (1 + ((pushes.length : ℕ) : ℤ)) % H
      = H * ((1 + ((pushes.length : ℕ) : ℤ)) / H) := by
    have hdef := Int.emod_def (1 + ((pushes.length : ℕ) : ℤ)) H
    omega
  have heq2 : ((pushes.length : ℕ) : ℤ) - (1 + ((pushes.length : ℕ) : ℤ)) % H
      = -1 + H * ((1 + ((pushes.length : ℕ) : ℤ)) / H) := by omega
  rw [heq2, Int.add_mul_emod_self_left, neg_one_emod_eq H hH]
  omega

/-- Claim C4 witness: history depth for two devices (`H = 2`), two pushes,
and a worker that has never synced (`localVer = 0`, gap 2 ≥ H): the fetch
picks slot `(1 + 2) % 2 = 1`, which holds version `1 = 2 - 2 + 1`. -/
theorem claim4_staleness_witness :
    (sparsePushN (fun _ p _ => p) 0 2 false 1 false 0 [([], 0, 0), ([], 0, 0)]
        (initShard (2 : ℤ).toNat [0])).histVer.getD
      (chosenSlot 2 (sparsePushN (fun _ p _ => p) 0 2 false 1 false 0
          [([], 0, 0), ([], 0, 0)] (initShard (2 : ℤ).toNat [0])).version 0) 0
      = (sparsePushN (fun _ p _ => p) 0 2 false 1 false 0 [([], 0, 0), ([], 0, 0)]
          (initShard (2 : ℤ).toNat [0])).version - 2 + 1 :=
  (claim4_staleness (fun _ p _ => p) 0 false 1 false 0 [0] [([], 0, 0), ([], 0, 0)] 0 2
    (by decide) (by decide) (by decide)).2

/-- Claim C5: over one accumulation window of `tau` micro-steps starting
at a step counter that is a multiple of `tau` (with a zeroed accumulator
and word counter, as at thread start and after every flush), exactly one
push is issued, at the end of the window, and it carries exactly the
elementwise sum `g1 + ... + g_tau` of the windowed gradients together with
the summed word count `w1 + ... + w_tau` — hence it applies the same
optimizer update as a single push of that summed gradient and word count —
and afterwards the accumulator and the word counter are reset to zero. -/
theorem claim5_accumulation (tau L t0 : ℕ) (batches : List (List ℚ × ℕ))
    (htau : 1 ≤ tau) (hlen : batches.length = tau) (ht : t0 % tau = 0)
    (hL : ∀ p ∈ batches, (Prod.fst p).length = L) :
    runSteps tau ⟨List.replicate L 0, 0, t0⟩ batches =
      (⟨List.replicate L 0, 0, t0 + tau⟩,
        [(batches.foldl (fun a p => List.zipWith (fun x y => x + y) a p.1)
            (List.replicate L 0),
          (batches.map Prod.snd).sum)]) := by
  rcases Nat.lt_or_ge 1 tau with h1 | h1
  · have hw := runSteps_window tau L h1 batches ⟨List.replicate L 0, 0, t0⟩
      (by intro h0; rw [h0] at hlen; simp at hlen; omega)
      (by omega)
      (by show (t0 + batches.length) % tau = 0; rw [hlen, Nat.add_mod_right]; exact ht)
      (by simp)
      (fun _ => rfl)
      hL
    rw [hw, hlen]
    simp
  · have htau1 : tau = 1 := by omega
    subst htau1
    rcases batches with _ | ⟨b, rest⟩
    · simp at hlen
    · rcases rest with _ | ⟨c, cs⟩
      · have hgL : b.1.length = L := hL b (List.mem_cons_self b [])
        have hm : (t0 + 1) % 1 = 0 := Nat.mod_one _
        have hlt : ¬(1 < 1) := by omega
        simp only [runSteps, microStep, if_neg hlt, if_pos hm, Option.toList,
          List.foldl_cons, List.foldl_nil, List.map_cons, List.map_nil, List.sum_cons,
          List.sum_nil, List.append_nil]
        rw [← hgL, zipWith_add_zeros, hgL]
        simp
      · simp at hlen

/-- Claim C5 witness: a `tau = 3` window with gradients `[1], [2], [3]`
and word counts 2, 3, 4 issues one push of the summed gradient with the
summed word count and leaves the accumulator and counter zeroed. -/
theorem claim5_accumulation_witness :
    runSteps 3 ⟨List.replicate 1 0, 0, 0⟩ [([1], 2), ([2], 3), ([3], 4)] =
      (⟨List.replicate 1 0, 0, 0 + 3⟩,
        [(([([1], 2), ([2], 3), ([3], 4)] : List (List ℚ × ℕ)).foldl
            (fun a p => List.zipWith (fun x y => x + y) a p.1) (List.replicate 1 0),
          (([([1], 2), ([2], 3), ([3], 4)] : List (List ℚ × ℕ)).map Prod.snd).sum)]) :=
  claim5_accumulation 3 1 0 [([1], 2), ([2], 3), ([3], 4)] (by decide) (by decide)
    (by decide) (by decide)

/-- Claim C10: with fewer than two graph replicas, `sparseFetchParams`
returns immediately, leaving the destination buffer and the per-worker
version table unchanged, and `sparsePush` ignores its sparse gradient
argument entirely, applying the whole-graph optimizer to graph 0 (with
scale `batch_words / average_batch_words` exactly when learning-rate
scaling is enabled) while leaving every shard — version counters
included — unchanged. -/
theorem claim10_degenerate (dropG : List ℚ → ℚ → List (ℕ × ℚ))
    (optUpd : Option ℚ → List ℚ → List ℚ → List ℚ)
    (optG : Option ℚ → List ℚ × List ℚ → List ℚ × List ℚ) (mvDecay : ℚ)
    (numGraphs : ℕ) (H : ℤ) (dropRate : ℚ) (shardSize : ℕ) (scaleLR : Bool)
    (avgWords : ℚ) (movingAvg : Bool) (batches : ℕ)
    (newGrads newGrads2 : List (ℕ × ℚ)) (batchWords : ℕ)
    (graph0 : List ℚ × List ℚ) (shards : List Shard) (localVers : List ℤ)
    (dest : List ℚ) (hn : numGraphs < 2) :
    sparseFetchParamsFull dropG numGraphs H dropRate shardSize shards localVers dest
      = (dest, localVers) ∧
    sparsePushFull optUpd optG mvDecay numGraphs H scaleLR avgWords movingAvg batches
        shardSize newGrads batchWords graph0 shards
      = (optG (if scaleLR then some ((batchWords : ℚ) / avgWords) else none) graph0,
          shards) ∧
    sparsePushFull optUpd optG mvDecay numGraphs H scaleLR avgWords movingAvg batches
        shardSize newGrads batchWords graph0 shards
      = sparsePushFull optUpd optG mvDecay numGraphs H scaleLR avgWords movingAvg batches
        shardSize newGrads2 batchWords graph0 shards := by
  refine ⟨?_, ?_, ?_⟩ <;> simp [sparseFetchParamsFull, sparsePushFull, hn]

/-- Claim C10 witness: a single replica — the fetch is an identity and the
push reduces to the plain whole-graph optimizer step. -/
theorem claim10_degenerate_witness :
    sparseFetchParamsFull (fun _ _ => []) 1 1 0 1 [] [] [] = ([], []) ∧
    sparsePushFull (fun _ p _ => p) (fun _ g => g) 0 1 1 false 1 false 0 1 [(0, 1)] 1
        ([], []) [] = ((([] : List ℚ), ([] : List ℚ)), ([] : List Shard)) := by
  have h := claim10_degenerate (fun _ _ => []) (fun _ p _ => p) (fun _ g => g) 0 1 1 0 1
    false 1 false 0 [(0, 1)] [] 1 ([], []) [] [] [] (by decide)
  exact ⟨h.1, h.2.1⟩

/-- Claim C2 (the code violates it): the shards created at first execution
are supposed to partition the flat parameter vector exactly, with
`sum(shard.size) == totalParams`.  Because `shardSize_ =
ceil(totalSize / devices_.size())` divides the integers before applying
`ceil`, a total of 10 parameters over 3 devices yields `shardSize_ = 3`
and shard sizes `[3, 3, 3]`, whose sum 9 leaves the last parameter outside
every shard.  The surrounding `min`/`totalSize -= size` pattern only makes
sense for a ceiling shard size, so the truncating division is a slip in
the code, not in the specification. -/
theorem claim2_partition_failing_eval :
    shardSizes 10 3 = [3, 3, 3] ∧ (shardSizes 10 3).sum = 9 ∧ (shardSizes 10 3).sum ≠ 10 := by
  refine ⟨by decide, by decide, by decide⟩

/-- Claim C6: the first moving-average update per shard is an exact
elementwise copy of the live parameters, and every later update with step
count `s` blends with `decay = min(maxDecay, (s+1)/(s+10))`; in
particular a second call at step count 0 (with the default
`maxDecay = 0.9999`) uses `decay = 0.1`, as on live values `[1, 2]`
followed by `[3, 4]`. -/
theorem claim6_moving_average :
    (∀ live : List ℚ, initMovingAverage live = live) ∧
    (∀ (m : ℚ) (avg live : List ℚ) (s : ℕ),
      updateMovingAverage m avg live s =
        List.zipWith (fun a p => decayOf m s * a + (1 - decayOf m s) * p) avg live) ∧
    (∀ (m : ℚ) (s : ℕ), decayOf m s = min m (((s : ℚ) + 1) / ((s : ℚ) + 10))) ∧
    decayOf (9999 / 10000) 0 = 1 / 10 ∧
    initMovingAverage [1, 2] = [1, 2] ∧
    updateMovingAverage (9999 / 10000) (initMovingAverage [1, 2]) [3, 4] 0 =
      [1 / 10 * 1 + 9 / 10 * 3, 1 / 10 * 2 + 9 / 10 * 4] := by
  have hd : decayOf (9999 / 10000) 0 = 1 / 10 := by
    unfold decayOf
    norm_num
  refine ⟨fun _ => rfl, fun _ _ _ _ => rfl, fun _ _ => rfl, hd, rfl, ?_⟩
  unfold updateMovingAverage initMovingAverage
  rw [hd]
  norm_num

/-- Claim C7: a parameter fetch happens exactly on the micro-steps with
`t % tau == 0`; on such a step the fetch is sparse exactly when the drop
rate is nonzero and `t > 0`, and the very first step `t = 0` always
fetches densely. -/
theorem claim7_fetch_cadence (dropRate : ℚ) (tau t : ℕ) (htau : 1 ≤ tau) :
    (fetchDecision dropRate tau t ≠ none ↔ t % tau = 0) ∧
    (fetchDecision dropRate tau t = some FetchKind.sparse ↔
      (t % tau = 0 ∧ dropRate ≠ 0 ∧ 0 < t)) ∧
    fetchDecision dropRate tau 0 = some FetchKind.dense := by
  unfold fetchDecision
  refine ⟨?_, ?_, ?_⟩
  · split
    · split <;> simp_all
    · simp_all
  · split
    · split <;> simp_all
    · simp_all
  · simp

/-- Claim C7 witness: with `tau = 2` the first step always fetches
densely. -/
theorem claim7_fetch_cadence_witness :
    fetchDecision (1 / 2) 2 0 = some FetchKind.dense :=
  (claim7_fetch_cadence (1 / 2) 2 0 (by decide)).2.2

/-- Claim C8: with a nonzero drop rate, the whole-worker sparse buffers
(`sparseGrads_`, `localSparseGrads_`) are allocated with capacity exactly
`totalSize * 1.2 * (1 - dropRate)` truncated to an integer, and each
per-shard sub-delta buffer (`tmpSparseDelta`, `localSparseDelta`) with
that capacity divided by the number of devices; the capacities are fixed
at first execution. -/
theorem claim8_sparse_capacity (t d : ℕ) (r : ℚ) :
    (∀ c ∈ (allocSparse t d r).sparseGradsCaps, c = ⌊(t : ℚ) * (12 / 10) * (1 - r)⌋) ∧
    (∀ c ∈ (allocSparse t d r).localSparseGradsCaps, c = ⌊(t : ℚ) * (12 / 10) * (1 - r)⌋) ∧
    (∀ c ∈ (allocSparse t d r).tmpSparseDeltaCaps,
      c = ⌊(t : ℚ) * (12 / 10) * (1 - r)⌋ / (d : ℤ)) ∧
    (∀ row ∈ (allocSparse t d r).localSparseDeltaCaps, ∀ c ∈ row,
      c = ⌊(t : ℚ) * (12 / 10) * (1 - r)⌋ / (d : ℤ)) := by
  have hcap : sparseCapacity t r = ⌊(t : ℚ) * (12 / 10) * (1 - r)⌋ :=
    ratFloor_eq_intFloor _
  refine ⟨?_, ?_, ?_, ?_⟩
  · intro c hc
    rw [List.eq_of_mem_replicate hc, hcap]
  · intro c hc
    rw [List.eq_of_mem_replicate hc, hcap]
  · intro c hc
    rw [List.eq_of_mem_replicate hc, hcap]
  · intro row hrow c hc
    rw [List.eq_of_mem_replicate hrow] at hc
    rw [List.eq_of_mem_replicate hc, hcap]

/-- Claim C8 witness: the first whole-worker buffer for 100 parameters on
4 devices at drop rate 1/2. -/
theorem claim8_sparse_capacity_witness :
    sparseCapacity 100 (1 / 2) = ⌊(100 : ℚ) * (12 / 10) * (1 - 1 / 2)⌋ :=
  (claim8_sparse_capacity 100 4 (1 / 2)).1 (sparseCapacity 100 (1 / 2))
    (by simp [allocSparse, List.mem_replicate])

/-- Claim C9: the history depth is fixed at construction — 1 when the drop
rate is zero (the constructor leaves the default `history_size_ = 1`), and
`devices_.size() * 1.5` truncated (that is, `floor`) when the drop rate is
nonzero; with a single device and compression enabled it is still 1. -/
theorem claim9_history_size (d : ℕ) (r : ℚ) :
    historySize d 0 = 1 ∧
    (0 < r → (historySize d r : ℤ) = ⌊(d : ℚ) * (3 / 2)⌋) ∧
    (0 < r → historySize d r = 3 * d / 2) ∧
    (0 < r → historySize 1 r = 1) := by
  refine ⟨by simp [historySize], ?_, fun hr => historySize_eq_of_pos d r hr, ?_⟩
  · intro hr
    unfold historySize
    rw [if_pos hr, ratFloor_eq_intFloor]
    exact Int.toNat_of_nonneg (Int.floor_nonneg.mpr (by positivity))
  · intro hr
    rw [historySize_eq_of_pos 1 r hr]

/-- Claim C9 witness: a single device with compression enabled (drop rate
1/2) still has history depth 1. -/
theorem claim9_history_size_witness : historySize 1 (1 / 2) = 1 :=
  (claim9_history_size 1 (1 / 2)).2.2.2 one_half_pos

end Marian
